import Mathlib

/-!
Formal model of the day-8 virtual machine of this repository
(`src/day-8/src/vickz84259.rs`), as a shallow embedding:

* `usize` is `Nat` with explicit bound checks against `2 ^ 64`; a Rust
  debug-build overflow or underflow panic is modelled as `none`;
* `Vec<String>` is `List String`; instructions are kept as raw strings,
  exactly as the source stores and re-splits them;
* every Rust panic site (`unwrap`, out-of-bounds indexing, arithmetic
  overflow, the `panic!` arms) is an `Option` failure or the `panicked`
  run result;
* the `loop` in `CPU::run` is modelled with explicit fuel; the adequacy of
  the chosen fuel (`program length + 1`) is proved below, so the model
  loses no behaviour of the source loop.
-/

namespace Day8

/-- Upper bound of the Rust `usize` type on a 64-bit target. -/
def USIZE : Nat := 2 ^ 64

/-- `usize` addition as in a Rust debug build: `none` on overflow. -/
def checkedAdd (a b : Nat) : Option Nat :=
  if a + b < USIZE then some (a + b) else none

/-- `usize` subtraction as in a Rust debug build: `none` on underflow. -/
def checkedSub (a b : Nat) : Option Nat :=
  if b ≤ a then some (a - b) else none

/-- Helper for `splitWhitespace`: walks the characters, accumulating the
current (reversed) word, emitting words at whitespace boundaries and
dropping empty fragments, as Rust `str::split_whitespace` does. -/
def splitWSChars : List Char → List Char → List (List Char)
  | [], acc => if acc.isEmpty then [] else [acc.reverse]
  | c :: cs, acc =>
    if c.isWhitespace then
      if acc.isEmpty then splitWSChars cs [] else acc.reverse :: splitWSChars cs []
    else splitWSChars cs (c :: acc)

/-- Rust `str::split_whitespace`, collected to a list: the whitespace
separated words of `s`, empty fragments dropped.  (Lean's
`Char.isWhitespace` covers the ASCII whitespace that occurs in the
program's instruction strings.) -/
def splitWhitespace (s : String) : List String :=
  (splitWSChars s.data []).map String.mk

/-- A single `split_whitespace` word: nonempty and free of whitespace. -/
def isTokenB (s : String) : Bool :=
  !s.data.isEmpty && s.data.all (fun c => !c.isWhitespace)

/-- An instruction string in the canonical source format: exactly two
words joined by one single space, e.g. `"jmp +4"`. -/
def canonicalB (s : String) : Bool :=
  match splitWhitespace s with
  | [instruction, arg] => s == instruction ++ " " ++ arg
  | _ => false

/-- The argument of an instruction, as parsed by the source: a sign tag
('+' or '-') with a `usize` magnitude (Rust `enum Operation`). -/
inductive Operation where
  | Add (value : Nat)
  | Sub (value : Nat)
deriving DecidableEq

/-- Rust `usize::from_str` on the characters after the sign: an optional
leading '+', then one or more ASCII digits, rejecting values that do not
fit in `usize`. -/
def parseUsize (cs : List Char) : Option Nat :=
  let ds := match cs with
    | '+' :: rest => rest
    | _ => cs
  if !ds.isEmpty && ds.all (fun c => c.isDigit) then
    let value := ds.foldl (fun n c => n * 10 + (c.toNat - 48)) 0
    if value < USIZE then some value else none
  else none

/-- `Operation::from_str`: the magnitude is parsed from everything after
the first character, then the first character selects the sign.  `none`
covers both `Err` results and the panic on slicing an empty string. -/
def Operation.fromStr (s : String) : Option Operation :=
  match s.data with
  | [] => none
  | sign :: rest =>
    match parseUsize rest with
    | none => none
    | some value =>
      if sign = '+' then some (Operation.Add value)
      else if sign = '-' then some (Operation.Sub value)
      else none

/-- The machine state of `struct CPU`: accumulator, instruction pointer,
program store, and the visited-address history of the current run. -/
structure CPU where
  accumulator : Nat
  ip : Nat
  instructions : List String
  history : List Nat
deriving DecidableEq

/-- `CPU::nop`: advance the instruction pointer by one. -/
def CPU.nop (cpu : CPU) : Option CPU :=
  (checkedAdd cpu.ip 1).map (fun newIp => { cpu with ip := newIp })

/-- `CPU::acc`: add or subtract the operand on the accumulator, then
advance the instruction pointer by one. -/
def CPU.acc (cpu : CPU) (operation : Operation) : Option CPU :=
  let newAcc := match operation with
    | Operation.Add value => checkedAdd cpu.accumulator value
    | Operation.Sub value => checkedSub cpu.accumulator value
  newAcc.bind (fun a =>
    (checkedAdd cpu.ip 1).map (fun newIp =>
      { cpu with accumulator := a, ip := newIp }))

/-- `CPU::jmp`: move the instruction pointer by the signed operand. -/
def CPU.jmp (cpu : CPU) (operation : Operation) : Option CPU :=
  let newIp := match operation with
    | Operation.Add value => checkedAdd cpu.ip value
    | Operation.Sub value => checkedSub cpu.ip value
  newIp.map (fun i => { cpu with ip := i })

/-- `CPU::get_instruction` on a raw program store: index the list (panic
when out of bounds) and split the line on whitespace, succeeding exactly
when there are two words (`collect_tuple` on a pair). -/
def getInstr (instructions : List String) (address : Nat) : Option (String × String) :=
  match instructions.get? address with
  | none => none
  | some s =>
    match splitWhitespace s with
    | [instruction, arg] => some (instruction, arg)
    | _ => none

/-- `CPU::get_instruction`. -/
def CPU.get_instruction (cpu : CPU) (address : Nat) : Option (String × String) :=
  getInstr cpu.instructions address

/-- `CPU::swap_instruction`: flip `"nop"` to `"jmp"` (and conversely),
rebuilding the line as opcode, one space, then the unchanged argument;
any other opcode leaves the store untouched. -/
def CPU.swap_instruction (cpu : CPU) (address : Nat) : Option CPU :=
  match cpu.get_instruction address with
  | none => none
  | some (instruction, arg) =>
    if instruction = "nop" then
      some { cpu with instructions := cpu.instructions.set address ("jmp" ++ " " ++ arg) }
    else if instruction = "jmp" then
      some { cpu with instructions := cpu.instructions.set address ("nop" ++ " " ++ arg) }
    else some cpu

/-- `CPU::step`: push the current instruction pointer on the history,
fetch and parse the current instruction, and dispatch on its opcode;
`none` on any of the source's panics (bad fetch, bad parse, unknown
opcode, arithmetic overflow). -/
def CPU.step (cpu₀ : CPU) : Option CPU :=
  let cpu : CPU := { cpu₀ with history := cpu₀.history ++ [cpu₀.ip] }
  match cpu.get_instruction cpu.ip with
  | none => none
  | some (instruction, arg) =>
    match Operation.fromStr arg with
    | none => none
    | some operation =>
      if instruction = "acc" then cpu.acc operation
      else if instruction = "jmp" then cpu.jmp operation
      else if instruction = "nop" then cpu.nop
      else none

/-- `enum CPUResult`. -/
inductive CPUResult where
  | InfiniteLoop
  | Terminate
deriving DecidableEq

/-- Result of the modelled `CPU::run` loop: a `CPUResult` with the final
machine state, a panic, or fuel exhaustion (proved unreachable for the
fuel `run` supplies). -/
inductive RunResult where
  | ok (result : CPUResult) (cpu : CPU)
  | panicked
  | outOfFuel
deriving DecidableEq

/-- The body of `CPU::run` with explicit fuel: report `InfiniteLoop` when
the pointer is already in the history, `Terminate` when it is at or past
the end of the program, otherwise step and continue. -/
def runFuel : Nat → CPU → RunResult
  | 0, _ => RunResult.outOfFuel
  | fuel + 1, cpu =>
    if cpu.ip ∈ cpu.history then RunResult.ok CPUResult.InfiniteLoop cpu
    else if cpu.instructions.length ≤ cpu.ip then RunResult.ok CPUResult.Terminate cpu
    else
      match cpu.step with
      | none => RunResult.panicked
      | some cpu' => runFuel fuel cpu'

/-- `CPU::run`; the fuel `program length + 1` is proved sufficient for
every start state below. -/
def CPU.run (cpu : CPU) : RunResult :=
  runFuel (cpu.instructions.length + 1) cpu

/-- `CPU::reset`: zero the pointer and accumulator and clear the history,
keeping the program store. -/
def CPU.reset (cpu : CPU) : CPU :=
  { cpu with ip := 0, accumulator := 0, history := [] }

/-- The signed accumulator effect of the instruction at `address`: the
operand for an `"acc"` line (negated for a `-` sign), `0` for anything
else.  Used to state what a completed run adds up. -/
def accEffect (instructions : List String) (address : Nat) : Int :=
  match getInstr instructions address with
  | some (instruction, arg) =>
    if instruction = "acc" then
      match Operation.fromStr arg with
      | some (Operation.Add value) => (value : Int)
      | some (Operation.Sub value) => -(value : Int)
      | none => 0
    else 0
  | none => 0

/-- The signed value of an `Operation`, for stating accumulator effects. -/
def opEffect : Operation → Int
  | Operation.Add value => (value : Int)
  | Operation.Sub value => -(value : Int)

/-- Number of program addresses not yet visited: the strictly decreasing
measure behind the termination of `CPU::run`. -/
def missingCount (cpu : CPU) : Nat :=
  ((Finset.range cpu.instructions.length).filter (fun a => a ∉ cpu.history)).card

/-- Observable outcome of `part_2`: the repair loop either breaks with a
printed accumulator (mutation kept) or exhausts its candidates. -/
inductive FixResult where
  | fixed (accumulator : Nat) (cpu : CPU)
  | noFix (cpu : CPU)
deriving DecidableEq

/-- The body of the `for address in history` loop of `part_2`: reset,
inspect the candidate, flip eligible opcodes, re-run, and either keep the
mutation (on termination) or revert it and continue. -/
def part2Loop : List Nat → CPU → Option FixResult
  | [], cpu => some (FixResult.noFix cpu)
  | address :: rest, cpu₀ =>
    let cpu := cpu₀.reset
    match cpu.get_instruction address with
    | none => none
    | some (oldInstruction, _) =>
      if oldInstruction = "nop" ∨ oldInstruction = "jmp" then
        match cpu.swap_instruction address with
        | none => none
        | some cpu₁ =>
          match cpu₁.run with
          | RunResult.ok CPUResult.InfiniteLoop cpu₂ =>
            match cpu₂.swap_instruction address with
            | none => none
            | some cpu₃ => part2Loop rest cpu₃
          | RunResult.ok CPUResult.Terminate cpu₂ =>
            some (FixResult.fixed cpu₂.accumulator cpu₂)
          | RunResult.panicked => none
          | RunResult.outOfFuel => none
      else part2Loop rest cpu

/-- `part_2`: run once (panicking if that run terminates), then hand the
captured loop history to the candidate loop. -/
def part_2 (cpu : CPU) : Option FixResult :=
  match cpu.run with
  | RunResult.ok CPUResult.InfiniteLoop cpu₁ => part2Loop cpu₁.history cpu₁
  | RunResult.ok CPUResult.Terminate _ => none
  | RunResult.panicked => none
  | RunResult.outOfFuel => none

/-- One candidate trial of the repair loop, observed in isolation from a
state with the given program store: what `part2Loop` does for a single
address before moving on. -/
inductive TrialResult where
  | skip (cpu : CPU)
  | still (cpu : CPU)
  | success (accumulator : Nat) (cpu : CPU)
  | panicked
deriving DecidableEq

/-- The single-candidate observation mirroring one `part2Loop` iteration:
`skip` for an ineligible opcode (no mutation, no run), `still` when the
flipped program loops again (mutation reverted), `success` when it
terminates (mutation kept). -/
def tryCandidate (cpu₀ : CPU) (address : Nat) : TrialResult :=
  let cpu := cpu₀.reset
  match cpu.get_instruction address with
  | none => TrialResult.panicked
  | some (oldInstruction, _) =>
    if oldInstruction = "nop" ∨ oldInstruction = "jmp" then
      match cpu.swap_instruction address with
      | none => TrialResult.panicked
      | some cpu₁ =>
        match cpu₁.run with
        | RunResult.ok CPUResult.InfiniteLoop cpu₂ =>
          match cpu₂.swap_instruction address with
          | none => TrialResult.panicked
          | some cpu₃ => TrialResult.still cpu₃
        | RunResult.ok CPUResult.Terminate cpu₂ =>
          TrialResult.success cpu₂.accumulator cpu₂
        | RunResult.panicked => TrialResult.panicked
        | RunResult.outOfFuel => TrialResult.panicked
    else TrialResult.skip cpu

/-- The worked example program of the specification: the program
`[NoOp(0), Accumulate(1), Jump(4), Accumulate(3), Jump(-3),
Accumulate(-99), Accumulate(1), Jump(-4), Accumulate(6)]` in the
source's string instruction format. -/
def exampleProgram : List String :=
  ["nop +0", "acc +1", "jmp +4", "acc +3", "jmp -3", "acc -99", "acc +1", "jmp -4", "acc +6"]

/-! ## Helper lemmas -/

theorem checkedAdd_some {a b c : Nat} (h : checkedAdd a b = some c) :
    a + b < USIZE ∧ c = a + b := by
  unfold checkedAdd at h
  split at h
  · exact ⟨by assumption, (Option.some.injEq _ _ ▸ h).symm⟩
  · exact absurd h (by simp)

theorem checkedSub_some {a b c : Nat} (h : checkedSub a b = some c) :
    b ≤ a ∧ c = a - b := by
  unfold checkedSub at h
  split at h
  · exact ⟨by assumption, (Option.some.injEq _ _ ▸ h).symm⟩
  · exact absurd h (by simp)

theorem set_of_get? {α : Type} : ∀ (l : List α) (n : Nat) (a : α),
    l.get? n = some a → l.set n a = l
  | [], n, a, h => by simp [List.get?] at h
  | x :: xs, 0, a, h => by
      simp [List.get?] at h
      simp [List.set, h]
  | x :: xs, n + 1, a, h => by
      simp only [List.get?] at h
      simp only [List.set, List.cons.injEq, true_and]
      exact set_of_get? xs n a h

theorem splitWSChars_nonws : ∀ (cs acc : List Char),
    (∀ c ∈ cs, c.isWhitespace = false) → acc.reverse ++ cs ≠ [] →
    splitWSChars cs acc = [acc.reverse ++ cs]
  | [], acc, _, hne => by
      have hacc : acc.isEmpty = false := by
        cases acc with
        | nil => simp at hne
        | cons c cs => rfl
      simp [splitWSChars, hacc]
  | c :: cs, acc, hws, _ => by
      have hc : c.isWhitespace = false := hws c (List.mem_cons_self c cs)
      have ih := splitWSChars_nonws cs (c :: acc)
        (fun d hd => hws d (List.mem_cons_of_mem c hd))
        (by simp)
      simp only [splitWSChars, hc, Bool.false_eq_true, if_false, ih,
        List.reverse_cons, List.append_assoc, List.cons_append, List.nil_append]

theorem splitWSChars_token_space : ∀ (cs : List Char) (acc rest : List Char),
    (∀ c ∈ cs, c.isWhitespace = false) → acc.reverse ++ cs ≠ [] →
    splitWSChars (cs ++ ' ' :: rest) acc = (acc.reverse ++ cs) :: splitWSChars rest []
  | [], acc, rest, _, hne => by
      have hacc : acc.isEmpty = false := by
        cases acc with
        | nil => simp at hne
        | cons c cs => rfl
      simp [splitWSChars, hacc]
  | c :: cs, acc, rest, hws, _ => by
      have hc : c.isWhitespace = false := hws c (List.mem_cons_self c cs)
      have ih := splitWSChars_token_space cs (c :: acc) rest
        (fun d hd => hws d (List.mem_cons_of_mem c hd))
        (by simp)
      calc splitWSChars ((c :: cs) ++ ' ' :: rest) acc
          = splitWSChars (cs ++ ' ' :: rest) (c :: acc) := by
            simp [splitWSChars, hc]
        _ = ((c :: acc).reverse ++ cs) :: splitWSChars rest [] := ih
        _ = (acc.reverse ++ c :: cs) :: splitWSChars rest [] := by
            simp

theorem isTokenB_chars {s : String} (h : isTokenB s = true) :
    s.data ≠ [] ∧ ∀ c ∈ s.data, c.isWhitespace = false := by
  unfold isTokenB at h
  simp only [Bool.and_eq_true, Bool.not_eq_true'] at h
  obtain ⟨h1, h2⟩ := h
  refine ⟨?_, ?_⟩
  · intro hnil
    rw [hnil] at h1
    simp at h1
  · intro c hc
    simpa using (List.all_eq_true.mp h2) c hc

theorem splitWhitespace_canonical {op arg : String}
    (hop : isTokenB op = true) (harg : isTokenB arg = true) :
    splitWhitespace (op ++ " " ++ arg) = [op, arg] := by
  obtain ⟨hop1, hop2⟩ := isTokenB_chars hop
  obtain ⟨harg1, harg2⟩ := isTokenB_chars harg
  have hdata : (op ++ " " ++ arg).data = op.data ++ ' ' :: arg.data := by
    rw [String.data_append, String.data_append]
    show op.data ++ [' '] ++ arg.data = _
    rw [List.append_assoc]
    rfl
  unfold splitWhitespace
  rw [hdata]
  rw [splitWSChars_token_space op.data [] arg.data hop2 (by simpa using hop1)]
  rw [splitWSChars_nonws arg.data [] harg2 (by simpa using harg1)]
  simp

theorem splitWSChars_tokens : ∀ (cs acc : List Char),
    (∀ c ∈ acc, c.isWhitespace = false) →
    ∀ l ∈ splitWSChars cs acc, l ≠ [] ∧ ∀ c ∈ l, c.isWhitespace = false
  | [], acc, hacc, l, hl => by
      unfold splitWSChars at hl
      split at hl
      · simp at hl
      · next hne =>
        simp only [List.mem_singleton] at hl
        subst hl
        refine ⟨?_, ?_⟩
        · intro h0
          rw [List.reverse_eq_nil_iff] at h0
          rw [h0] at hne
          simp at hne
        · intro c hc
          exact hacc c (List.mem_reverse.mp hc)
  | c :: cs, acc, hacc, l, hl => by
      unfold splitWSChars at hl
      split at hl
      · next hws =>
        split at hl
        · exact splitWSChars_tokens cs [] (by simp) l hl
        · next hne =>
          rcases List.mem_cons.mp hl with h | h
          · subst h
            refine ⟨?_, ?_⟩
            · intro h0
              rw [List.reverse_eq_nil_iff] at h0
              rw [h0] at hne
              simp at hne
            · intro d hd
              exact hacc d (List.mem_reverse.mp hd)
          · exact splitWSChars_tokens cs [] (by simp) l h
      · next hws =>
        refine splitWSChars_tokens cs (c :: acc) ?_ l hl
        intro d hd
        rcases List.mem_cons.mp hd with h | h
        · subst h
          exact Bool.not_eq_true _ ▸ hws
        · exact hacc d h

theorem splitWhitespace_parts {s a b : String}
    (h : splitWhitespace s = [a, b]) : isTokenB a = true ∧ isTokenB b = true := by
  unfold splitWhitespace at h
  have hmap := h
  cases hsp : splitWSChars s.data [] with
  | nil => rw [hsp] at hmap; simp at hmap
  | cons l₁ rest =>
    cases rest with
    | nil => rw [hsp] at hmap; simp at hmap
    | cons l₂ rest₂ =>
      cases rest₂ with
      | cons l₃ rest₃ => rw [hsp] at hmap; simp at hmap
      | nil =>
        rw [hsp] at hmap
        simp only [List.map_cons, List.map_nil, List.cons.injEq, and_true] at hmap
        obtain ⟨ha, hb⟩ := hmap
        have h₁ := splitWSChars_tokens s.data [] (by simp) l₁ (by rw [hsp]; simp)
        have h₂ := splitWSChars_tokens s.data [] (by simp) l₂ (by rw [hsp]; simp)
        constructor
        · rw [← ha]
          unfold isTokenB
          simp only [Bool.and_eq_true, Bool.not_eq_true']
          exact ⟨by simpa [List.isEmpty_iff] using h₁.1,
            List.all_eq_true.mpr (by intro c hc; simp [h₁.2 c hc])⟩
        · rw [← hb]
          unfold isTokenB
          simp only [Bool.and_eq_true, Bool.not_eq_true']
          exact ⟨by simpa [List.isEmpty_iff] using h₂.1,
            List.all_eq_true.mpr (by intro c hc; simp [h₂.2 c hc])⟩

theorem nop_spec {cpu cpu' : CPU} (h : cpu.nop = some cpu') :
    cpu'.instructions = cpu.instructions ∧ cpu'.history = cpu.history ∧
    cpu'.accumulator = cpu.accumulator := by
  unfold CPU.nop at h
  cases hi : checkedAdd cpu.ip 1 with
  | none => rw [hi] at h; simp at h
  | some i =>
    rw [hi] at h
    simp only [Option.map_some', Option.some.injEq] at h
    rw [← h]
    exact ⟨rfl, rfl, rfl⟩

theorem acc_spec {cpu cpu' : CPU} {op : Operation} (h : cpu.acc op = some cpu') :
    cpu'.instructions = cpu.instructions ∧ cpu'.history = cpu.history ∧
    (cpu'.accumulator : Int) = (cpu.accumulator : Int) + opEffect op := by
  cases op with
  | Add value =>
    unfold CPU.acc at h
    dsimp only at h
    cases ha : checkedAdd cpu.accumulator value with
    | none => rw [ha] at h; simp at h
    | some a =>
      rw [ha] at h
      cases hi : checkedAdd cpu.ip 1 with
      | none => rw [hi] at h; simp at h
      | some i =>
        rw [hi] at h
        simp only [Option.some_bind, Option.map_some', Option.some.injEq] at h
        rw [← h]
        refine ⟨rfl, rfl, ?_⟩
        obtain ⟨-, ha2⟩ := checkedAdd_some ha
        subst ha2
        simp [opEffect]
  | Sub value =>
    unfold CPU.acc at h
    dsimp only at h
    cases ha : checkedSub cpu.accumulator value with
    | none => rw [ha] at h; simp at h
    | some a =>
      rw [ha] at h
      cases hi : checkedAdd cpu.ip 1 with
      | none => rw [hi] at h; simp at h
      | some i =>
        rw [hi] at h
        simp only [Option.some_bind, Option.map_some', Option.some.injEq] at h
        rw [← h]
        refine ⟨rfl, rfl, ?_⟩
        obtain ⟨ha1, ha2⟩ := checkedSub_some ha
        subst ha2
        rw [Nat.cast_sub ha1]
        simp [opEffect, sub_eq_add_neg]

theorem jmp_spec {cpu cpu' : CPU} {op : Operation} (h : cpu.jmp op = some cpu') :
    cpu'.instructions = cpu.instructions ∧ cpu'.history = cpu.history ∧
    cpu'.accumulator = cpu.accumulator := by
  cases op with
  | Add value =>
    unfold CPU.jmp at h
    dsimp only at h
    cases hi : checkedAdd cpu.ip value with
    | none => rw [hi] at h; simp at h
    | some i =>
      rw [hi] at h
      simp only [Option.map_some', Option.some.injEq] at h
      rw [← h]
      exact ⟨rfl, rfl, rfl⟩
  | Sub value =>
    unfold CPU.jmp at h
    dsimp only at h
    cases hi : checkedSub cpu.ip value with
    | none => rw [hi] at h; simp at h
    | some i =>
      rw [hi] at h
      simp only [Option.map_some', Option.some.injEq] at h
      rw [← h]
      exact ⟨rfl, rfl, rfl⟩

theorem accEffect_acc {instructions : List String} {ip : Nat}
    {instruction arg : String} {operation : Operation}
    (hg : getInstr instructions ip = some (instruction, arg))
    (hp : Operation.fromStr arg = some operation)
    (hacc : instruction = "acc") :
    accEffect instructions ip = opEffect operation := by
  unfold accEffect
  rw [hg, hacc]
  simp only [if_true, eq_self_iff_true]
  rw [hp]
  cases operation <;> rfl

theorem accEffect_not_acc {instructions : List String} {ip : Nat}
    {instruction arg : String}
    (hg : getInstr instructions ip = some (instruction, arg))
    (hacc : instruction ≠ "acc") :
    accEffect instructions ip = 0 := by
  unfold accEffect
  rw [hg]
  simp [hacc]

theorem step_spec {cpu cpu' : CPU} (h : cpu.step = some cpu') :
    cpu'.instructions = cpu.instructions ∧
    cpu'.history = cpu.history ++ [cpu.ip] ∧
    (cpu'.accumulator : Int) =
      (cpu.accumulator : Int) + accEffect cpu.instructions cpu.ip := by
  unfold CPU.step at h
  simp only [CPU.get_instruction] at h
  cases hg : getInstr cpu.instructions cpu.ip with
  | none => rw [hg] at h; simp at h
  | some pair =>
    obtain ⟨instruction, arg⟩ := pair
    rw [hg] at h
    dsimp only at h
    cases hp : Operation.fromStr arg with
    | none => rw [hp] at h; simp at h
    | some operation =>
      rw [hp] at h
      dsimp only at h
      by_cases hacc : instruction = "acc"
      · rw [if_pos hacc] at h
        obtain ⟨h1, h2, h3⟩ := acc_spec h
        exact ⟨h1, h2, by rw [h3, accEffect_acc hg hp hacc]⟩
      · rw [if_neg hacc] at h
        rw [accEffect_not_acc hg hacc]
        by_cases hjmp : instruction = "jmp"
        · rw [if_pos hjmp] at h
          obtain ⟨h1, h2, h3⟩ := jmp_spec h
          exact ⟨h1, h2, by rw [h3]; simp⟩
        · rw [if_neg hjmp] at h
          by_cases hnop : instruction = "nop"
          · rw [if_pos hnop] at h
            obtain ⟨h1, h2, h3⟩ := nop_spec h
            exact ⟨h1, h2, by rw [h3]; simp⟩
          · rw [if_neg hnop] at h
            simp at h

theorem runFuel_inv : ∀ (fuel : Nat) (cpu : CPU) (r : CPUResult) (cpu' : CPU),
    runFuel fuel cpu = RunResult.ok r cpu' →
    cpu'.instructions = cpu.instructions ∧
    (∃ path, cpu'.history = cpu.history ++ path ∧
      (cpu'.accumulator : Int) =
        (cpu.accumulator : Int) + (path.map (accEffect cpu.instructions)).sum) ∧
    (cpu.history.Nodup → cpu'.history.Nodup) ∧
    (r = CPUResult.InfiniteLoop → cpu'.ip ∈ cpu'.history) ∧
    (r = CPUResult.Terminate → cpu.instructions.length ≤ cpu'.ip ∧ cpu'.ip ∉ cpu'.history)
  | 0, cpu, r, cpu', h => by simp [runFuel] at h
  | fuel + 1, cpu, r, cpu', h => by
    simp only [runFuel] at h
    by_cases hmem : cpu.ip ∈ cpu.history
    · rw [if_pos hmem] at h
      injection h with h1 h2
      subst h1
      subst h2
      refine ⟨rfl, ⟨[], by simp, by simp⟩, fun hnd => hnd, fun _ => hmem, ?_⟩
      intro hT
      cases hT
    · rw [if_neg hmem] at h
      by_cases hlen : cpu.instructions.length ≤ cpu.ip
      · rw [if_pos hlen] at h
        injection h with h1 h2
        subst h1
        subst h2
        refine ⟨rfl, ⟨[], by simp, by simp⟩, fun hnd => hnd, ?_, fun _ => ⟨hlen, hmem⟩⟩
        intro hI
        cases hI
      · rw [if_neg hlen] at h
        cases hs : cpu.step with
        | none => rw [hs] at h; cases h
        | some cpu₁ =>
          rw [hs] at h
          obtain ⟨hi, hh, hacc⟩ := step_spec hs
          obtain ⟨ih1, ⟨path, ihh, ihacc⟩, ihnd, ihloop, ihterm⟩ :=
            runFuel_inv fuel cpu₁ r cpu' h
          refine ⟨ih1.trans hi, ⟨cpu.ip :: path, ?_, ?_⟩, ?_, ihloop, ?_⟩
          · rw [ihh, hh]
            simp
          · rw [ihacc, hacc, hi]
            simp only [List.map_cons, List.sum_cons]
            ring
          · intro hnd
            refine ihnd ?_
            rw [hh, List.nodup_append]
            refine ⟨hnd, List.nodup_singleton _, ?_⟩
            intro a ha hb
            rw [List.mem_singleton] at hb
            subst hb
            exact hmem ha
          · intro hT
            obtain ⟨hl, hm⟩ := ihterm hT
            rw [hi] at hl
            exact ⟨hl, hm⟩

theorem missingCount_step {cpu cpu₁ : CPU} (hs : cpu.step = some cpu₁)
    (hmem : cpu.ip ∉ cpu.history) (hlt : cpu.ip < cpu.instructions.length) :
    missingCount cpu₁ < missingCount cpu := by
  obtain ⟨hi, hh, -⟩ := step_spec hs
  unfold missingCount
  rw [hi, hh]
  have hsub : (Finset.range cpu.instructions.length).filter
        (fun a => a ∉ cpu.history ++ [cpu.ip]) ⊆
      (Finset.range cpu.instructions.length).filter (fun a => a ∉ cpu.history) := by
    intro x hx
    simp only [Finset.mem_filter, List.mem_append, List.mem_singleton] at hx ⊢
    exact ⟨hx.1, fun hc => hx.2 (Or.inl hc)⟩
  apply Finset.card_lt_card
  rw [Finset.ssubset_iff_of_subset hsub]
  refine ⟨cpu.ip, ?_, ?_⟩
  · simp only [Finset.mem_filter, Finset.mem_range]
    exact ⟨hlt, hmem⟩
  · simp only [Finset.mem_filter, Finset.mem_range, List.mem_append, List.mem_singleton,
      not_and, not_not]
    intro _
    simp

theorem runFuel_loop {fuel : Nat} {cpu : CPU} (h : cpu.ip ∈ cpu.history) :
    runFuel (fuel + 1) cpu = RunResult.ok CPUResult.InfiniteLoop cpu := by
  simp [runFuel, h]

theorem runFuel_done {fuel : Nat} {cpu : CPU} (h1 : cpu.ip ∉ cpu.history)
    (h2 : cpu.instructions.length ≤ cpu.ip) :
    runFuel (fuel + 1) cpu = RunResult.ok CPUResult.Terminate cpu := by
  simp [runFuel, h1, h2]

theorem runFuel_panic {fuel : Nat} {cpu : CPU} (h1 : cpu.ip ∉ cpu.history)
    (h2 : ¬cpu.instructions.length ≤ cpu.ip) (hs : cpu.step = none) :
    runFuel (fuel + 1) cpu = RunResult.panicked := by
  simp [runFuel, h1, h2, hs]

theorem runFuel_next {fuel : Nat} {cpu cpu₁ : CPU} (h1 : cpu.ip ∉ cpu.history)
    (h2 : ¬cpu.instructions.length ≤ cpu.ip) (hs : cpu.step = some cpu₁) :
    runFuel (fuel + 1) cpu = runFuel fuel cpu₁ := by
  simp [runFuel, h1, h2, hs]

theorem runFuel_term : ∀ (fuel : Nat) (cpu : CPU), missingCount cpu < fuel →
    runFuel fuel cpu ≠ RunResult.outOfFuel
  | 0, _, h => absurd h (Nat.not_lt_zero _)
  | fuel + 1, cpu, h => by
    by_cases hmem : cpu.ip ∈ cpu.history
    · rw [runFuel_loop hmem]
      simp
    · by_cases hlen : cpu.instructions.length ≤ cpu.ip
      · rw [runFuel_done hmem hlen]
        simp
      · cases hs : cpu.step with
        | none =>
          rw [runFuel_panic hmem hlen hs]
          simp
        | some cpu₁ =>
          rw [runFuel_next hmem hlen hs]
          refine runFuel_term fuel cpu₁ ?_
          have h1 := missingCount_step hs hmem (Nat.lt_of_not_le hlen)
          exact Nat.lt_of_lt_of_le h1 (Nat.lt_succ_iff.mp h)

theorem runFuel_succ_eq : ∀ (fuel : Nat) (cpu : CPU),
    runFuel fuel cpu ≠ RunResult.outOfFuel →
    runFuel (fuel + 1) cpu = runFuel fuel cpu
  | 0, _, h => absurd rfl h
  | fuel + 1, cpu, h => by
    by_cases hmem : cpu.ip ∈ cpu.history
    · rw [runFuel_loop hmem, runFuel_loop hmem]
    · by_cases hlen : cpu.instructions.length ≤ cpu.ip
      · rw [runFuel_done hmem hlen, runFuel_done hmem hlen]
      · cases hs : cpu.step with
        | none => rw [runFuel_panic hmem hlen hs, runFuel_panic hmem hlen hs]
        | some cpu₁ =>
          rw [runFuel_next hmem hlen hs, runFuel_next hmem hlen hs]
          refine runFuel_succ_eq fuel cpu₁ ?_
          rw [← runFuel_next hmem hlen hs]
          exact h

theorem runFuel_ge : ∀ (k fuel : Nat) (cpu : CPU),
    runFuel fuel cpu ≠ RunResult.outOfFuel →
    runFuel (fuel + k) cpu = runFuel fuel cpu
  | 0, _, _, _ => rfl
  | k + 1, fuel, cpu, h => by
    have h1 := runFuel_ge k fuel cpu h
    have h2 : runFuel (fuel + k) cpu ≠ RunResult.outOfFuel := by
      rw [h1]
      exact h
    show runFuel ((fuel + k) + 1) cpu = runFuel fuel cpu
    rw [runFuel_succ_eq (fuel + k) cpu h2, h1]

theorem missingCount_le (cpu : CPU) : missingCount cpu ≤ cpu.instructions.length := by
  refine le_trans (Finset.card_filter_le _ _) ?_
  simp

theorem run_inv {cpu : CPU} {r : CPUResult} {cpu' : CPU}
    (h : cpu.run = RunResult.ok r cpu') :
    cpu'.instructions = cpu.instructions ∧
    (∃ path, cpu'.history = cpu.history ++ path ∧
      (cpu'.accumulator : Int) =
        (cpu.accumulator : Int) + (path.map (accEffect cpu.instructions)).sum) ∧
    (cpu.history.Nodup → cpu'.history.Nodup) ∧
    (r = CPUResult.InfiniteLoop → cpu'.ip ∈ cpu'.history) ∧
    (r = CPUResult.Terminate → cpu.instructions.length ≤ cpu'.ip ∧ cpu'.ip ∉ cpu'.history) :=
  runFuel_inv _ cpu r cpu' h

/-! ## Claim theorems: the execution engine -/

/-- Claim C1, counterexample: on the one-instruction program
`["jmp +2"]` the instruction pointer moves to address `2`, strictly
beyond the program length `1`, yet `run` returns `Terminate` — there is
no distinct `AddressOutOfRange` outcome in the code. -/
theorem run_overshoot_terminates :
    CPU.run (CPU.mk 0 0 ["jmp +2"] []) =
      RunResult.ok CPUResult.Terminate (CPU.mk 0 2 ["jmp +2"] [0]) ∧
    (CPU.mk 0 2 ["jmp +2"] [0]).instructions.length < (CPU.mk 0 2 ["jmp +2"] [0]).ip := by
  constructor
  · decide
  · decide

/-- Claim C1 (amended): `run` returns `Terminate` exactly when the
instruction pointer reaches any address at or past `program.length`
(strict overshoot included, with no distinct error); every `Terminate`
result has its final pointer at or past the end of the program. -/
theorem run_terminate_iff_past_end (cpu : CPU) :
    (cpu.instructions.length ≤ cpu.ip → cpu.ip ∉ cpu.history →
      cpu.run = RunResult.ok CPUResult.Terminate cpu) ∧
    (∀ cpu', cpu.run = RunResult.ok CPUResult.Terminate cpu' →
      cpu'.instructions.length ≤ cpu'.ip ∧ cpu'.ip ∉ cpu'.history) := by
  constructor
  · intro h1 h2
    show runFuel (cpu.instructions.length + 1) cpu = _
    rw [runFuel_done h2 h1]
  · intro cpu' h
    obtain ⟨hi, -, -, -, hterm⟩ := run_inv h
    obtain ⟨hl, hm⟩ := hterm rfl
    rw [hi]
    exact ⟨hl, hm⟩

/-- Witness for `run_terminate_iff_past_end` at the empty program. -/
theorem run_terminate_iff_past_end_witness :
    CPU.run (CPU.mk 0 0 [] []) = RunResult.ok CPUResult.Terminate (CPU.mk 0 0 [] []) :=
  (run_terminate_iff_past_end (CPU.mk 0 0 [] [])).1 (by decide) (by decide)

/-- Claim C2: a run from a fresh (empty) history that reports
`InfiniteLoop` stops at a pointer already present in the visited
history, and that history is duplicate-free — so the reported address is
the first revisit and its instruction was not executed a second time. -/
theorem run_loop_detected_first_revisit (cpu cpu' : CPU)
    (h0 : cpu.history = [])
    (h : cpu.run = RunResult.ok CPUResult.InfiniteLoop cpu') :
    cpu'.ip ∈ cpu'.history ∧ cpu'.history.Nodup := by
  obtain ⟨-, -, hnd, hloop, -⟩ := run_inv h
  refine ⟨hloop rfl, hnd ?_⟩
  rw [h0]
  exact List.nodup_nil

/-- Witness for `run_loop_detected_first_revisit` on `["jmp +0"]`. -/
theorem run_loop_detected_first_revisit_witness :
    (CPU.mk 0 0 ["jmp +0"] [0]).ip ∈ (CPU.mk 0 0 ["jmp +0"] [0]).history ∧
    (CPU.mk 0 0 ["jmp +0"] [0]).history.Nodup :=
  run_loop_detected_first_revisit (CPU.mk 0 0 ["jmp +0"] [])
    (CPU.mk 0 0 ["jmp +0"] [0]) rfl (by decide)

/-- Claim C3: a run that reports `Terminate` ends with an accumulator
equal (as a signed integer) to the starting accumulator plus the signed
sum of the `acc` operands of the instructions executed along the path
taken (the addresses appended to the history). -/
theorem run_terminate_accumulator_sum (cpu cpu' : CPU)
    (h : cpu.run = RunResult.ok CPUResult.Terminate cpu') :
    (cpu'.accumulator : Int) =
      (cpu.accumulator : Int) +
        (((cpu'.history.drop cpu.history.length).map (accEffect cpu.instructions)).sum) := by
  obtain ⟨-, ⟨path, hh, hacc⟩, -, -, -⟩ := run_inv h
  rw [hh, List.drop_left]
  exact hacc

/-- Witness for `run_terminate_accumulator_sum` on `["acc +5"]`. -/
theorem run_terminate_accumulator_sum_witness :
    ((CPU.mk 5 1 ["acc +5"] [0]).accumulator : Int) =
      ((CPU.mk 0 0 ["acc +5"] []).accumulator : Int) +
        ((((CPU.mk 5 1 ["acc +5"] [0]).history.drop
            (CPU.mk 0 0 ["acc +5"] []).history.length).map
              (accEffect (CPU.mk 0 0 ["acc +5"] []).instructions)).sum) :=
  run_terminate_accumulator_sum (CPU.mk 0 0 ["acc +5"] []) (CPU.mk 5 1 ["acc +5"] [0])
    (by decide)

/-- Claim C4: `run` terminates — the visited history grows by a fresh
in-range address at every step, so `program.length + 1` loop iterations
always suffice: any fuel at least that large gives the same result as
`run`, and `run` never exhausts its fuel. -/
theorem run_fuel_adequate (cpu : CPU) (fuel : Nat)
    (h : cpu.instructions.length + 1 ≤ fuel) :
    runFuel fuel cpu = cpu.run ∧ cpu.run ≠ RunResult.outOfFuel := by
  have hterm : cpu.run ≠ RunResult.outOfFuel :=
    runFuel_term _ _ (Nat.lt_succ_of_le (missingCount_le cpu))
  refine ⟨?_, hterm⟩
  have heq : fuel = (cpu.instructions.length + 1) + (fuel - (cpu.instructions.length + 1)) :=
    (Nat.add_sub_cancel' h).symm
  rw [heq]
  exact runFuel_ge _ _ _ hterm

/-- Witness for `run_fuel_adequate` at the empty program with fuel 3. -/
theorem run_fuel_adequate_witness :
    runFuel 3 (CPU.mk 0 0 [] []) = (CPU.mk 0 0 [] []).run ∧
    (CPU.mk 0 0 [] []).run ≠ RunResult.outOfFuel :=
  run_fuel_adequate (CPU.mk 0 0 [] []) 3 (by decide)

/-- Claim C5: at every point of a run (i.e. for every remaining fuel,
which ranges over every intermediate state of the loop), a
duplicate-free visited history stays duplicate-free: an address is
appended only after the membership check failed. -/
theorem run_history_nodup (fuel : Nat) (cpu : CPU) (r : CPUResult) (cpu' : CPU)
    (h0 : cpu.history.Nodup) (h : runFuel fuel cpu = RunResult.ok r cpu') :
    cpu'.history.Nodup := by
  obtain ⟨-, -, hnd, -, -⟩ := runFuel_inv fuel cpu r cpu' h
  exact hnd h0

/-- Witness for `run_history_nodup` on `["jmp +0"]`. -/
theorem run_history_nodup_witness :
    (CPU.mk 0 0 ["jmp +0"] [0]).history.Nodup :=
  run_history_nodup 2 (CPU.mk 0 0 ["jmp +0"] []) CPUResult.InfiniteLoop
    (CPU.mk 0 0 ["jmp +0"] [0]) (by decide) (by decide)

/-- Claim C8: `run` is a pure function of the machine state (so two
invocations from identical states are trivially equal), and it is
idempotent across resets: starting from a reset state, running, then
resetting and running again produces the identical outcome and final
accumulator, because a run never changes the program store. -/
theorem run_idempotent_after_reset (cpu c₁ : CPU) (r : CPUResult)
    (h0 : cpu.reset = cpu) (h : cpu.run = RunResult.ok r c₁) :
    c₁.reset.run = RunResult.ok r c₁ := by
  obtain ⟨hi, -, -, -, -⟩ := run_inv h
  have hreset : c₁.reset = cpu.reset := by
    show CPU.mk 0 0 c₁.instructions [] = CPU.mk 0 0 cpu.instructions []
    rw [hi]
  rw [hreset, h0]
  exact h

/-- Witness for `run_idempotent_after_reset` at the empty program. -/
theorem run_idempotent_after_reset_witness :
    (CPU.mk 0 0 [] []).reset.run = RunResult.ok CPUResult.Terminate (CPU.mk 0 0 [] []) :=
  run_idempotent_after_reset (CPU.mk 0 0 [] []) (CPU.mk 0 0 [] [])
    CPUResult.Terminate rfl (by decide)

/-- Claim C9: on the specification's worked example, `run` detects the
loop with first repeated address 1 (accumulator 5 at that point), and
the repair search flips the `jmp -4` at address 7 to `nop -4`, after
which the run terminates with final accumulator 8. -/
theorem example_program_end_to_end :
    CPU.run (CPU.mk 0 0 exampleProgram []) =
      RunResult.ok CPUResult.InfiniteLoop
        (CPU.mk 5 1 exampleProgram [0, 1, 2, 6, 7, 3, 4]) ∧
    part_2 (CPU.mk 0 0 exampleProgram []) =
      some (FixResult.fixed 8
        (CPU.mk 8 9 (exampleProgram.set 7 ("nop" ++ " " ++ "-4")) [0, 1, 2, 6, 7, 8])) := by
  constructor
  · decide
  · decide

/-! ## Helper lemmas: the repair search -/

theorem reset_instructions (cpu : CPU) : (cpu.reset).instructions = cpu.instructions := rfl

theorem swap_spec {cpu : CPU} {address : Nat} {instruction arg : String}
    (h : cpu.get_instruction address = some (instruction, arg)) :
    cpu.swap_instruction address =
      some (if instruction = "nop" then
              { cpu with instructions := cpu.instructions.set address ("jmp" ++ " " ++ arg) }
            else if instruction = "jmp" then
              { cpu with instructions := cpu.instructions.set address ("nop" ++ " " ++ arg) }
            else cpu) := by
  unfold CPU.swap_instruction
  rw [h]
  dsimp only
  by_cases h1 : instruction = "nop"
  · rw [if_pos h1, if_pos h1]
  · rw [if_neg h1, if_neg h1]
    by_cases h2 : instruction = "jmp"
    · rw [if_pos h2, if_pos h2]
    · rw [if_neg h2, if_neg h2]

theorem getInstr_some {instructions : List String} {address : Nat}
    {instruction arg : String}
    (h : getInstr instructions address = some (instruction, arg)) :
    ∃ s, instructions.get? address = some s ∧ splitWhitespace s = [instruction, arg] := by
  unfold getInstr at h
  cases hg : instructions.get? address with
  | none => rw [hg] at h; cases h
  | some s =>
    rw [hg] at h
    dsimp only at h
    refine ⟨s, rfl, ?_⟩
    rcases hsp : splitWhitespace s with _ | ⟨a, _ | ⟨b, _ | ⟨c, rest⟩⟩⟩ <;> rw [hsp] at h
    · cases h
    · cases h
    · injection h with h1
      injection h1 with h2 h3
      rw [h2, h3]
    · cases h

theorem canonical_getInstr {instructions : List String} {address : Nat}
    {instruction arg : String}
    (hc : ∀ s ∈ instructions, canonicalB s = true)
    (h : getInstr instructions address = some (instruction, arg)) :
    instructions.get? address = some (instruction ++ " " ++ arg) ∧
    isTokenB instruction = true ∧ isTokenB arg = true := by
  obtain ⟨s, hg, hsp⟩ := getInstr_some h
  obtain ⟨h1, h2⟩ := splitWhitespace_parts hsp
  have hcs := hc s (List.get?_mem hg)
  unfold canonicalB at hcs
  rw [hsp] at hcs
  have hs : s = instruction ++ " " ++ arg := eq_of_beq hcs
  rw [← hs]
  exact ⟨hg, h1, h2⟩

theorem getInstr_set_canonical {instructions : List String} {address : Nat}
    {op arg : String} (hop : isTokenB op = true) (harg : isTokenB arg = true)
    (hlt : address < instructions.length) :
    getInstr (instructions.set address (op ++ " " ++ arg)) address = some (op, arg) := by
  unfold getInstr
  rw [List.get?_set_eq_of_lt _ hlt]
  dsimp only
  rw [splitWhitespace_canonical hop harg]

theorem tryCandidate_congr {c₁ c₂ : CPU} (h : c₁.instructions = c₂.instructions)
    (address : Nat) : tryCandidate c₁ address = tryCandidate c₂ address := by
  have hr : c₁.reset = c₂.reset := by
    show CPU.mk 0 0 c₁.instructions [] = CPU.mk 0 0 c₂.instructions []
    rw [h]
  unfold tryCandidate
  rw [hr]

theorem part2Loop_cons (address : Nat) (rest : List Nat) (cpu : CPU) :
    part2Loop (address :: rest) cpu =
      match tryCandidate cpu address with
      | TrialResult.skip c => part2Loop rest c
      | TrialResult.still c => part2Loop rest c
      | TrialResult.success n c => some (FixResult.fixed n c)
      | TrialResult.panicked => none := by
  simp only [part2Loop, tryCandidate]
  cases hg : (cpu.reset).get_instruction address with
  | none => rfl
  | some pair =>
    obtain ⟨instruction, arg⟩ := pair
    dsimp only
    by_cases he : instruction = "nop" ∨ instruction = "jmp"
    · rw [if_pos he, if_pos he]
      cases hs : (cpu.reset).swap_instruction address with
      | none => rfl
      | some cpu₁ =>
        dsimp only
        cases hr : cpu₁.run with
        | ok r cpu₂ =>
          cases r with
          | InfiniteLoop =>
            dsimp only
            cases hs2 : cpu₂.swap_instruction address <;> rfl
          | Terminate => rfl
        | panicked => rfl
        | outOfFuel => rfl
    · rw [if_neg he, if_neg he]

theorem tryCandidate_skip_eq {cpu c : CPU} {address : Nat}
    (h : tryCandidate cpu address = TrialResult.skip c) : c = cpu.reset := by
  unfold tryCandidate at h
  dsimp only at h
  cases hg : (cpu.reset).get_instruction address with
  | none => rw [hg] at h; cases h
  | some pair =>
    obtain ⟨instruction, arg⟩ := pair
    rw [hg] at h
    dsimp only at h
    by_cases he : instruction = "nop" ∨ instruction = "jmp"
    · rw [if_pos he] at h
      cases hs : (cpu.reset).swap_instruction address with
      | none => rw [hs] at h; cases h
      | some cpu₁ =>
        rw [hs] at h
        dsimp only at h
        cases hr : cpu₁.run with
        | ok r cpu₂ =>
          rw [hr] at h
          cases r with
          | InfiniteLoop =>
            dsimp only at h
            cases hs2 : cpu₂.swap_instruction address <;> rw [hs2] at h <;> cases h
          | Terminate => cases h
        | panicked => rw [hr] at h; cases h
        | outOfFuel => rw [hr] at h; cases h
    · rw [if_neg he] at h
      injection h with h1
      rw [← h1]

theorem tryCandidate_success_spec {cpu c : CPU} {address n : Nat}
    (h : tryCandidate cpu address = TrialResult.success n c) :
    n = c.accumulator ∧
    ∃ instruction arg, getInstr cpu.instructions address = some (instruction, arg) ∧
      ((instruction = "jmp" ∧
          c.instructions = cpu.instructions.set address ("nop" ++ " " ++ arg)) ∨
       (instruction = "nop" ∧
          c.instructions = cpu.instructions.set address ("jmp" ++ " " ++ arg))) := by
  unfold tryCandidate at h
  dsimp only at h
  cases hg : (cpu.reset).get_instruction address with
  | none => rw [hg] at h; cases h
  | some pair =>
    obtain ⟨instruction, arg⟩ := pair
    rw [hg] at h
    dsimp only at h
    by_cases he : instruction = "nop" ∨ instruction = "jmp"
    · rw [if_pos he] at h
      cases hs : (cpu.reset).swap_instruction address with
      | none => rw [hs] at h; cases h
      | some cpu₁ =>
        rw [hs] at h
        dsimp only at h
        rw [swap_spec hg] at hs
        injection hs with hs1
        cases hr : cpu₁.run with
        | ok r cpu₂ =>
          rw [hr] at h
          cases r with
          | InfiniteLoop =>
            dsimp only at h
            cases hs2 : cpu₂.swap_instruction address <;> rw [hs2] at h <;> cases h
          | Terminate =>
            injection h with h1 h2
            obtain ⟨hi2, -, -, -, -⟩ := run_inv hr
            refine ⟨by rw [← h2]; exact h1.symm, instruction, arg, hg, ?_⟩
            rcases he with hnop | hjmp
            · rw [if_pos hnop] at hs1
              right
              refine ⟨hnop, ?_⟩
              rw [← h2, hi2, ← hs1]
              rfl
            · have hne : instruction ≠ "nop" := by
                intro hx
                rw [hx] at hjmp
                exact absurd hjmp (by decide)
              rw [if_neg hne, if_pos hjmp] at hs1
              left
              refine ⟨hjmp, ?_⟩
              rw [← h2, hi2, ← hs1]
              rfl
        | panicked => rw [hr] at h; cases h
        | outOfFuel => rw [hr] at h; cases h
    · rw [if_neg he] at h
      cases h

theorem tryCandidate_still_instructions {cpu c : CPU} {address : Nat}
    (hc : ∀ s ∈ cpu.instructions, canonicalB s = true)
    (h : tryCandidate cpu address = TrialResult.still c) :
    c.instructions = cpu.instructions := by
  unfold tryCandidate at h
  dsimp only at h
  cases hg : (cpu.reset).get_instruction address with
  | none => rw [hg] at h; cases h
  | some pair =>
    obtain ⟨instruction, arg⟩ := pair
    rw [hg] at h
    dsimp only at h
    by_cases he : instruction = "nop" ∨ instruction = "jmp"
    · rw [if_pos he] at h
      cases hs : (cpu.reset).swap_instruction address with
      | none => rw [hs] at h; cases h
      | some cpu₁ =>
        rw [hs] at h
        dsimp only at h
        rw [swap_spec hg] at hs
        injection hs with hs1
        cases hr : cpu₁.run with
        | ok r cpu₂ =>
          rw [hr] at h
          cases r with
          | Terminate => cases h
          | InfiniteLoop =>
            dsimp only at h
            have hgi : getInstr cpu.instructions address = some (instruction, arg) := hg
            obtain ⟨hget, htok_i, htok_a⟩ := canonical_getInstr hc hgi
            have hlt : address < cpu.instructions.length := by
              obtain ⟨hlt, -⟩ := List.get?_eq_some.mp hget
              exact hlt
            obtain ⟨hi2, -, -, -, -⟩ := run_inv hr
            rcases he with hnop | hjmp
            · rw [if_pos hnop] at hs1
              have hinstr1 : cpu₁.instructions =
                  cpu.instructions.set address ("jmp" ++ " " ++ arg) := by
                rw [← hs1]
                rfl
              have hg2 : getInstr cpu₂.instructions address = some ("jmp", arg) := by
                rw [hi2, hinstr1]
                exact getInstr_set_canonical (by decide) htok_a hlt
              cases hs2 : cpu₂.swap_instruction address with
              | none => rw [hs2] at h; cases h
              | some cpu₃ =>
                rw [hs2] at h
                injection h with h3
                rw [swap_spec hg2] at hs2
                rw [if_neg (by decide), if_pos rfl] at hs2
                injection hs2 with hs3
                rw [← h3, ← hs3]
                show cpu₂.instructions.set address ("nop" ++ " " ++ arg) = cpu.instructions
                rw [hi2, hinstr1, List.set_set]
                refine set_of_get? _ _ _ ?_
                rw [hnop] at hget
                exact hget
            · have hne : instruction ≠ "nop" := by
                intro hx
                rw [hx] at hjmp
                exact absurd hjmp (by decide)
              rw [if_neg hne, if_pos hjmp] at hs1
              have hinstr1 : cpu₁.instructions =
                  cpu.instructions.set address ("nop" ++ " " ++ arg) := by
                rw [← hs1]
                rfl
              have hg2 : getInstr cpu₂.instructions address = some ("nop", arg) := by
                rw [hi2, hinstr1]
                exact getInstr_set_canonical (by decide) htok_a hlt
              cases hs2 : cpu₂.swap_instruction address with
              | none => rw [hs2] at h; cases h
              | some cpu₃ =>
                rw [hs2] at h
                injection h with h3
                rw [swap_spec hg2] at hs2
                rw [if_pos rfl] at hs2
                injection hs2 with hs3
                rw [← h3, ← hs3]
                show cpu₂.instructions.set address ("jmp" ++ " " ++ arg) = cpu.instructions
                rw [hi2, hinstr1, List.set_set]
                refine set_of_get? _ _ _ ?_
                rw [hjmp] at hget
                exact hget
        | panicked => rw [hr] at h; cases h
        | outOfFuel => rw [hr] at h; cases h
    · rw [if_neg he] at h
      cases h

theorem part2Loop_mutation : ∀ (cands : List Nat) (cpu : CPU) (res : FixResult),
    (∀ s ∈ cpu.instructions, canonicalB s = true) →
    part2Loop cands cpu = some res →
    (∀ c, res = FixResult.noFix c → c.instructions = cpu.instructions) ∧
    (∀ n c, res = FixResult.fixed n c →
      ∃ address instruction arg,
        getInstr cpu.instructions address = some (instruction, arg) ∧
        ((instruction = "jmp" ∧
            c.instructions = cpu.instructions.set address ("nop" ++ " " ++ arg)) ∨
         (instruction = "nop" ∧
            c.instructions = cpu.instructions.set address ("jmp" ++ " " ++ arg))))
  | [], cpu, res, hc, h => by
      unfold part2Loop at h
      injection h with h1
      constructor
      · intro c hq
        rw [← h1] at hq
        injection hq with hq1
        rw [← hq1]
      · intro n c hq
        rw [← h1] at hq
        cases hq
  | address :: rest, cpu, res, hc, h => by
      rw [part2Loop_cons] at h
      cases ht : tryCandidate cpu address with
      | skip c =>
        rw [ht] at h
        dsimp only at h
        have hci : c.instructions = cpu.instructions := by
          rw [tryCandidate_skip_eq ht]
          rfl
        have hc' : ∀ s ∈ c.instructions, canonicalB s = true := by
          rw [hci]
          exact hc
        obtain ⟨ih1, ih2⟩ := part2Loop_mutation rest c res hc' h
        constructor
        · intro c' hq
          rw [ih1 c' hq, hci]
        · intro n c' hq
          obtain ⟨a, i, g, hgi, hd⟩ := ih2 n c' hq
          rw [hci] at hgi hd
          exact ⟨a, i, g, hgi, hd⟩
      | still c =>
        rw [ht] at h
        dsimp only at h
        have hci : c.instructions = cpu.instructions :=
          tryCandidate_still_instructions hc ht
        have hc' : ∀ s ∈ c.instructions, canonicalB s = true := by
          rw [hci]
          exact hc
        obtain ⟨ih1, ih2⟩ := part2Loop_mutation rest c res hc' h
        constructor
        · intro c' hq
          rw [ih1 c' hq, hci]
        · intro n c' hq
          obtain ⟨a, i, g, hgi, hd⟩ := ih2 n c' hq
          rw [hci] at hgi hd
          exact ⟨a, i, g, hgi, hd⟩
      | success n₀ c₀ =>
        rw [ht] at h
        dsimp only at h
        injection h with h1
        constructor
        · intro c hq
          rw [← h1] at hq
          cases hq
        · intro n c hq
          rw [← h1] at hq
          injection hq with hq1 hq2
          obtain ⟨-, instruction, arg, hgi, hd⟩ := tryCandidate_success_spec ht
          rw [hq2] at hd
          exact ⟨address, instruction, arg, hgi, hd⟩
      | panicked =>
        rw [ht] at h
        cases h

theorem part2Loop_order : ∀ (cands : List Nat) (cpu : CPU) (n : Nat) (c' : CPU),
    (∀ s ∈ cpu.instructions, canonicalB s = true) →
    part2Loop cands cpu = some (FixResult.fixed n c') →
    ∃ pre address suf, cands = pre ++ address :: suf ∧
      (∀ b ∈ pre, (∃ c, tryCandidate cpu b = TrialResult.skip c) ∨
        (∃ c, tryCandidate cpu b = TrialResult.still c)) ∧
      tryCandidate cpu address = TrialResult.success n c'
  | [], cpu, n, c', hc, h => by
      unfold part2Loop at h
      injection h with h1
      cases h1
  | address :: rest, cpu, n, c', hc, h => by
      rw [part2Loop_cons] at h
      cases ht : tryCandidate cpu address with
      | skip c =>
        rw [ht] at h
        dsimp only at h
        have hci : c.instructions = cpu.instructions := by
          rw [tryCandidate_skip_eq ht]
          rfl
        have hc' : ∀ s ∈ c.instructions, canonicalB s = true := by
          rw [hci]
          exact hc
        obtain ⟨pre, a, suf, hsplit, hpre, hsucc⟩ := part2Loop_order rest c n c' hc' h
        refine ⟨address :: pre, a, suf, by rw [hsplit]; rfl, ?_, ?_⟩
        · intro b hb
          rcases List.mem_cons.mp hb with hb1 | hb2
          · rw [hb1]
            exact Or.inl ⟨c, ht⟩
          · rcases hpre b hb2 with ⟨cx, hx⟩ | ⟨cx, hx⟩
            · exact Or.inl ⟨cx, by rw [← tryCandidate_congr hci b]; exact hx⟩
            · exact Or.inr ⟨cx, by rw [← tryCandidate_congr hci b]; exact hx⟩
        · rw [← tryCandidate_congr hci a]
          exact hsucc
      | still c =>
        rw [ht] at h
        dsimp only at h
        have hci : c.instructions = cpu.instructions :=
          tryCandidate_still_instructions hc ht
        have hc' : ∀ s ∈ c.instructions, canonicalB s = true := by
          rw [hci]
          exact hc
        obtain ⟨pre, a, suf, hsplit, hpre, hsucc⟩ := part2Loop_order rest c n c' hc' h
        refine ⟨address :: pre, a, suf, by rw [hsplit]; rfl, ?_, ?_⟩
        · intro b hb
          rcases List.mem_cons.mp hb with hb1 | hb2
          · rw [hb1]
            exact Or.inr ⟨c, ht⟩
          · rcases hpre b hb2 with ⟨cx, hx⟩ | ⟨cx, hx⟩
            · exact Or.inl ⟨cx, by rw [← tryCandidate_congr hci b]; exact hx⟩
            · exact Or.inr ⟨cx, by rw [← tryCandidate_congr hci b]; exact hx⟩
        · rw [← tryCandidate_congr hci a]
          exact hsucc
      | success n₀ c₀ =>
        rw [ht] at h
        dsimp only at h
        injection h with h1
        injection h1 with hq1 hq2
        refine ⟨[], address, rest, rfl, ?_, ?_⟩
        · intro b hb
          cases hb
        · rw [← hq1, ← hq2]
          exact ht
      | panicked =>
        rw [ht] at h
        cases h

/-! ## Claim theorems: the repair search -/

/-- Claim C10: `swap_instruction` is a self-inverting flip: at an
address holding `op ++ " " ++ arg` (opcode and argument joined by a
single space), flipping twice restores the program exactly when `op` is
`"jmp"` or `"nop"`, and a single flip at any other opcode leaves the
whole machine unchanged. -/
theorem swap_instruction_involutive (cpu : CPU) (address : Nat) (op arg : String)
    (hop : isTokenB op = true) (harg : isTokenB arg = true)
    (hget : cpu.instructions.get? address = some (op ++ " " ++ arg)) :
    ((op = "jmp" ∨ op = "nop") →
      (cpu.swap_instruction address).bind (fun c => c.swap_instruction address) =
        some cpu) ∧
    (op ≠ "jmp" → op ≠ "nop" → cpu.swap_instruction address = some cpu) := by
  obtain ⟨hlt, -⟩ := List.get?_eq_some.mp hget
  have hg : cpu.get_instruction address = some (op, arg) := by
    show getInstr cpu.instructions address = some (op, arg)
    unfold getInstr
    rw [hget]
    dsimp only
    rw [splitWhitespace_canonical hop harg]
  constructor
  · rintro (hjmp | hnop)
    · subst hjmp
      rw [swap_spec hg, if_neg (by decide), if_pos rfl, Option.some_bind]
      have hg₂ : CPU.get_instruction
          { cpu with instructions := cpu.instructions.set address ("nop" ++ " " ++ arg) }
          address = some ("nop", arg) :=
        getInstr_set_canonical (by decide) harg hlt
      rw [swap_spec hg₂, if_pos rfl]
      show some (CPU.mk cpu.accumulator cpu.ip
        ((cpu.instructions.set address ("nop" ++ " " ++ arg)).set address
          ("jmp" ++ " " ++ arg)) cpu.history) = some cpu
      rw [List.set_set, set_of_get? _ _ _ hget]
    · subst hnop
      rw [swap_spec hg, if_pos rfl, Option.some_bind]
      have hg₂ : CPU.get_instruction
          { cpu with instructions := cpu.instructions.set address ("jmp" ++ " " ++ arg) }
          address = some ("jmp", arg) :=
        getInstr_set_canonical (by decide) harg hlt
      rw [swap_spec hg₂, if_neg (by decide), if_pos rfl]
      show some (CPU.mk cpu.accumulator cpu.ip
        ((cpu.instructions.set address ("jmp" ++ " " ++ arg)).set address
          ("nop" ++ " " ++ arg)) cpu.history) = some cpu
      rw [List.set_set, set_of_get? _ _ _ hget]
  · intro h1 h2
    rw [swap_spec hg, if_neg h2, if_neg h1]

/-- Witness for `swap_instruction_involutive` on `["jmp +1"]` at 0. -/
theorem swap_instruction_involutive_witness :
    (CPU.swap_instruction (CPU.mk 0 0 ["jmp +1"] []) 0).bind
      (fun c => c.swap_instruction 0) = some (CPU.mk 0 0 ["jmp +1"] []) :=
  (swap_instruction_involutive (CPU.mk 0 0 ["jmp +1"] []) 0 "jmp" "+1"
    (by decide) (by decide) (by decide)).1 (Or.inl rfl)

/-- Claim C6, counterexample: on the program `["jmp  +0", "jmp -1"]`
(two spaces in the first instruction), the repair search exhausts its
candidates and returns a program that differs from the input — the
revert rebuilds `"jmp +0"` with a single space, so the store is not
restored to its original content. -/
theorem part2_noncanonical_not_restored :
    part_2 (CPU.mk 0 0 ["jmp  +0", "jmp -1"] []) =
      some (FixResult.noFix (CPU.mk 0 0 ["jmp +0", "jmp -1"] [0, 1])) ∧
    (CPU.mk 0 0 ["jmp +0", "jmp -1"] [0, 1]).instructions ≠
      (CPU.mk 0 0 ["jmp  +0", "jmp -1"] []).instructions := by
  constructor
  · decide
  · decide

/-- Claim C6 (amended): for programs whose instructions are in the
canonical single-space format, every failed trial restores the program
store (so the store equals its original content before each new
candidate and at most one instruction is mutated at any instant), a
candidate-exhausted search returns the store exactly as it received it,
and a successful search returns a store that differs from the input in
exactly the one successful `jmp`/`nop` flip. -/
theorem part2_at_most_one_mutation (cpu : CPU)
    (hc : ∀ s ∈ cpu.instructions, canonicalB s = true) :
    (∀ address c, tryCandidate cpu address = TrialResult.still c →
      c.instructions = cpu.instructions) ∧
    (∀ c, part_2 cpu = some (FixResult.noFix c) → c.instructions = cpu.instructions) ∧
    (∀ n c, part_2 cpu = some (FixResult.fixed n c) →
      ∃ address instruction arg,
        getInstr cpu.instructions address = some (instruction, arg) ∧
        ((instruction = "jmp" ∧
            c.instructions = cpu.instructions.set address ("nop" ++ " " ++ arg)) ∨
         (instruction = "nop" ∧
            c.instructions = cpu.instructions.set address ("jmp" ++ " " ++ arg)))) := by
  refine ⟨fun address c h => tryCandidate_still_instructions hc h, ?_, ?_⟩
  · intro c hq
    unfold part_2 at hq
    cases hr : cpu.run with
    | ok r c₁ =>
      rw [hr] at hq
      cases r with
      | InfiniteLoop =>
        dsimp only at hq
        obtain ⟨hi, -, -, -, -⟩ := run_inv hr
        have hc₁ : ∀ s ∈ c₁.instructions, canonicalB s = true := by
          rw [hi]
          exact hc
        obtain ⟨m1, -⟩ := part2Loop_mutation c₁.history c₁ _ hc₁ hq
        rw [m1 c rfl, hi]
      | Terminate =>
        dsimp only at hq
        cases hq
    | panicked => rw [hr] at hq; cases hq
    | outOfFuel => rw [hr] at hq; cases hq
  · intro n c hq
    unfold part_2 at hq
    cases hr : cpu.run with
    | ok r c₁ =>
      rw [hr] at hq
      cases r with
      | InfiniteLoop =>
        dsimp only at hq
        obtain ⟨hi, -, -, -, -⟩ := run_inv hr
        have hc₁ : ∀ s ∈ c₁.instructions, canonicalB s = true := by
          rw [hi]
          exact hc
        obtain ⟨-, m2⟩ := part2Loop_mutation c₁.history c₁ _ hc₁ hq
        obtain ⟨a, i, g, hgi, hd⟩ := m2 n c rfl
        rw [hi] at hgi hd
        exact ⟨a, i, g, hgi, hd⟩
      | Terminate =>
        dsimp only at hq
        cases hq
    | panicked => rw [hr] at hq; cases hq
    | outOfFuel => rw [hr] at hq; cases hq

/-- Witness for `part2_at_most_one_mutation` on `["jmp +0"]`: the
successful fix flips the `jmp` at address 0 to `nop`. -/
theorem part2_at_most_one_mutation_witness :
    ∃ address instruction arg,
      getInstr (CPU.mk 0 0 ["jmp +0"] []).instructions address = some (instruction, arg) ∧
      ((instruction = "jmp" ∧
          (CPU.mk 0 1 ["nop +0"] [0]).instructions =
            (CPU.mk 0 0 ["jmp +0"] []).instructions.set address ("nop" ++ " " ++ arg)) ∨
       (instruction = "nop" ∧
          (CPU.mk 0 1 ["nop +0"] [0]).instructions =
            (CPU.mk 0 0 ["jmp +0"] []).instructions.set address ("jmp" ++ " " ++ arg))) :=
  (part2_at_most_one_mutation (CPU.mk 0 0 ["jmp +0"] []) (by decide)).2.2 0
    (CPU.mk 0 1 ["nop +0"] [0]) (by decide)

/-- Claim C7: for canonically formatted programs, a successful repair
search decomposes the captured loop history as `pre ++ address :: suf`:
every candidate in `pre` (in first-visited order) was either skipped
(ineligible opcode, no mutation) or tried and reverted, and the
returned fix is the trial at `address`; and each single trial rewrites
`jmp` to `nop` (and `nop` to `jmp`) keeping the same operand text,
while any other opcode leaves the machine untouched. -/
theorem part2_candidates_in_history_order (cpu c₁ c' : CPU) (n : Nat)
    (hc : ∀ s ∈ cpu.instructions, canonicalB s = true)
    (h1 : cpu.run = RunResult.ok CPUResult.InfiniteLoop c₁)
    (h2 : part_2 cpu = some (FixResult.fixed n c')) :
    (∃ pre address suf, c₁.history = pre ++ address :: suf ∧
      (∀ b ∈ pre, (∃ c, tryCandidate c₁ b = TrialResult.skip c) ∨
        (∃ c, tryCandidate c₁ b = TrialResult.still c)) ∧
      tryCandidate c₁ address = TrialResult.success n c') ∧
    (∀ (c : CPU) (b : Nat) (op arg : String),
      c.get_instruction b = some (op, arg) →
      ((op ≠ "nop" ∧ op ≠ "jmp") → c.swap_instruction b = some c) ∧
      (op = "jmp" → c.swap_instruction b =
        some { c with instructions := c.instructions.set b ("nop" ++ " " ++ arg) }) ∧
      (op = "nop" → c.swap_instruction b =
        some { c with instructions := c.instructions.set b ("jmp" ++ " " ++ arg) })) := by
  constructor
  · unfold part_2 at h2
    rw [h1] at h2
    dsimp only at h2
    obtain ⟨hi, -, -, -, -⟩ := run_inv h1
    have hc₁ : ∀ s ∈ c₁.instructions, canonicalB s = true := by
      rw [hi]
      exact hc
    exact part2Loop_order c₁.history c₁ n c' hc₁ h2
  · intro c b op arg hx
    refine ⟨?_, ?_, ?_⟩
    · rintro ⟨hn1, hn2⟩
      rw [swap_spec hx, if_neg hn1, if_neg hn2]
    · intro hj
      have hne : op ≠ "nop" := by
        rw [hj]
        decide
      rw [swap_spec hx, if_neg hne, if_pos hj]
    · intro hn
      rw [swap_spec hx, if_pos hn]

/-- Witness for `part2_candidates_in_history_order` on `["jmp +0"]`. -/
theorem part2_candidates_in_history_order_witness :
    ∃ pre address suf,
      (CPU.mk 0 0 ["jmp +0"] [0]).history = pre ++ address :: suf ∧
      (∀ b ∈ pre, (∃ c, tryCandidate (CPU.mk 0 0 ["jmp +0"] [0]) b = TrialResult.skip c) ∨
        (∃ c, tryCandidate (CPU.mk 0 0 ["jmp +0"] [0]) b = TrialResult.still c)) ∧
      tryCandidate (CPU.mk 0 0 ["jmp +0"] [0]) address =
        TrialResult.success 0 (CPU.mk 0 1 ["nop +0"] [0]) :=
  (part2_candidates_in_history_order (CPU.mk 0 0 ["jmp +0"] [])
    (CPU.mk 0 0 ["jmp +0"] [0]) (CPU.mk 0 1 ["nop +0"] [0]) 0
    (by decide) (by decide) (by decide)).1

end Day8
